import Mathlib

/-!
# Typing-indicator liveness of the Ably chat demo

Shallow embedding of the typing registry of `backend/server.js` (the `typingUsers`
map, the `POST /api/typing` and `GET /api/typing` handlers and the `setInterval`
sweep) and of the client reconciler `typingHandler` of `src/App.jsx`.

Modelling conventions.
* `Date.now()` is an input of the operation that reads it (an `Int`, milliseconds).
* The outcome of `chatChannel.publish` is an input as well: the promise resolves or
  rejects, the call itself does not throw.
* Every handler runs to completion before the next one starts; the publish awaited by
  a `POST` settles before any other handler touches the map.
* `setInterval` and `setTimeout` callbacks run at their due time.
* A JavaScript `Map` / `Set` is a list in insertion order with pairwise distinct keys.
* `req.body` is an input of the `POST` handler: `none` when the body parser left it
  undefined, `some` of the two fields the handler destructures when it is an object.
-/

namespace AblyChat

/-! ## JavaScript values -/

/-- Values a field of a parsed JSON body can hold. `undefined` is a missing field,
`num` an integer valued number, `obj` an array or object identified by its
reference (two parsed bodies never share one). The flag of `obj` tells whether
conversion to a string succeeds: it throws for a parsed object whose own `toString`
and `valueOf` properties are not callable. -/
inductive JsVal where
  | undefined
  | null
  | bool (b : Bool)
  | num (n : Int)
  | str (s : String)
  | obj (ref : Nat) (stringifies : Bool)
  deriving DecidableEq

/-- JavaScript truthiness, the test behind `!username`. -/
def JsVal.truthy : JsVal → Bool
  | .undefined => false
  | .null => false
  | .bool b => b
  | .num n => n != 0
  | .str s => s != ""
  | .obj _ _ => true

/-- Whether the template literal of `console.log` can convert the value to a string. -/
def JsVal.stringifies : JsVal → Bool
  | .obj _ ok => ok
  | _ => true

/-! ## The server registry: `const typingUsers = new Map()` -/

/-- Entries of `typingUsers` in insertion order: username and timestamp. -/
abbrev Registry := List (JsVal × Int)

/-- The constant `TYPING_TIMEOUT` of the server, 3000 ms. -/
def TYPING_TIMEOUT : Int := 3000

/-- The array `Array.from(typingUsers.keys())`. -/
def keys (m : Registry) : List JsVal := m.map Prod.fst

/-- The lookup `typingUsers.get(k)`. -/
def mapGet (k : JsVal) : Registry → Option Int
  | [] => none
  | (k', v) :: rest => if k' = k then some v else mapGet k rest

/-- The update `typingUsers.set(k, v)`: an existing key keeps its position and takes the new
value, a new key is appended. -/
def mapSet (k : JsVal) (v : Int) : Registry → Registry
  | [] => [(k, v)]
  | (k', v') :: rest => if k' = k then (k, v) :: rest else (k', v') :: mapSet k v rest

/-- The removal `typingUsers.delete(k)`. -/
def mapDelete (k : JsVal) (m : Registry) : Registry :=
  m.filter (fun e => decide (e.1 ≠ k))

/-- Keys of a `Map` are pairwise distinct. -/
def WF (m : Registry) : Prop := (keys m).Nodup

instance (m : Registry) : Decidable (WF m) := by unfold WF; infer_instance

/-! ## Published events and responses -/

/-- Payload handed to `chatChannel.publish` for the event name typing. The sweep sends no
`timestamp` field. -/
structure TypingEvent where
  username : JsVal
  isTyping : Bool
  timestamp : Option Int
  deriving DecidableEq

/-- Body of `res.json(...)`. -/
inductive Body where
  | error (msg : String)
  | success (message : String) (activeTypingUsers : List JsVal)
  | typingUsers (activeUsers : List JsVal)
  deriving DecidableEq

/-- HTTP response: status code and JSON body. -/
structure Response where
  status : Nat
  body : Body
  deriving DecidableEq

/-- The two destructured fields of `req.body`. -/
structure TypingRequest where
  username : JsVal
  isTyping : JsVal
  deriving DecidableEq

/-- Effect of one run of a handler: the registry afterwards, the publish attempts in
order, the `console.error` lines, and the response (the sweep has none). -/
structure Outcome where
  typingUsers : Registry
  published : List TypingEvent
  errors : List String
  response : Option Response
  deriving DecidableEq

/-! ## The handler of `POST /api/typing` -/

/-- Handler of `POST /api/typing`. `body` is `req.body`, `now` the `Date.now()` of the
registry update, `nowPub` the one of the payload, `publishOk` tells whether the
awaited publish resolves. Three things throw inside the `try` and land in the `catch`
block, which answers 500: destructuring an undefined `req.body`, a rejected publish,
and the template literal of `console.log` on a username that has no string form. -/
def postTyping (body : Option TypingRequest) (now nowPub : Int) (publishOk : Bool)
    (typingUsers : Registry) : Outcome :=
  match body with
  | none =>
    { typingUsers := typingUsers, published := [],
      errors := ["Error handling typing indicator:"],
      response := some ⟨500, .error "Failed to send typing indicator"⟩ }
  | some req =>
    if !req.username.truthy then
      { typingUsers := typingUsers, published := [], errors := [],
        response := some ⟨400, .error "Username is required"⟩ }
    else
      match req.isTyping with
      | .bool isTyping =>
        let updated :=
          if isTyping then mapSet req.username now typingUsers
          else mapDelete req.username typingUsers
        let event : TypingEvent := ⟨req.username, isTyping, some nowPub⟩
        if publishOk then
          if req.username.stringifies then
            { typingUsers := updated, published := [event], errors := [],
              response := some ⟨200, .success "Typing indicator sent" (keys updated)⟩ }
          else
            { typingUsers := updated, published := [event],
              errors := ["Error handling typing indicator:"],
              response := some ⟨500, .error "Failed to send typing indicator"⟩ }
        else
          { typingUsers := updated, published := [event],
            errors := ["Error handling typing indicator:"],
            response := some ⟨500, .error "Failed to send typing indicator"⟩ }
      | _ =>
        { typingUsers := typingUsers, published := [], errors := [],
          response := some ⟨400, .error "isTyping must be a boolean"⟩ }

/-! ## The handler of `GET /api/typing` -/

/-- Handler of `GET /api/typing`. -/
def getTyping (typingUsers : Registry) : Response :=
  ⟨200, .typingUsers (keys typingUsers)⟩

/-! ## The sweep run by `setInterval` every 5000 ms -/

/-- Payload of the stop notification of the sweep. -/
def stopEvent (username : JsVal) : TypingEvent := ⟨username, false, none⟩

/-- Body of the `for ... of typingUsers.entries()` loop over the entries still to
visit. Deleting the visited entry leaves the entries after it in place, so the
loop visits every entry of the map once. `publishOk` tells for each payload whether
its publish resolves; a rejection only reaches the `.catch` logger. -/
def sweepLoop (now : Int) (publishOk : TypingEvent → Bool) :
    List (JsVal × Int) → Outcome → Outcome
  | [], acc => acc
  | (username, timestamp) :: rest, acc =>
    if now - timestamp > TYPING_TIMEOUT then
      sweepLoop now publishOk rest
        { typingUsers := mapDelete username acc.typingUsers,
          published := acc.published ++ [stopEvent username],
          errors := acc.errors ++
            (if publishOk (stopEvent username) then []
             else ["Failed to publish typing stopped:"]),
          response := none }
    else sweepLoop now publishOk rest acc

/-- One tick of the sweep callback at `now = Date.now()`. -/
def sweep (now : Int) (publishOk : TypingEvent → Bool) (typingUsers : Registry) : Outcome :=
  sweepLoop now publishOk typingUsers
    { typingUsers := typingUsers, published := [], errors := [], response := none }

/-- Sweep interval, the second argument of `setInterval`. -/
def SWEEP_INTERVAL : Int := 5000

/-! ## Traces of the server -/

/-- What the event loop of the server runs: a `POST /api/typing`, a `GET /api/typing`
or one tick of the sweep, each with the clock readings and publish results it meets. -/
inductive Ev where
  | post (body : Option TypingRequest) (now nowPub : Int) (publishOk : Bool)
  | get
  | tick (now : Int) (publishOk : TypingEvent → Bool)

/-- One handler run. -/
def step (typingUsers : Registry) : Ev → Outcome
  | .post body now nowPub publishOk => postTyping body now nowPub publishOk typingUsers
  | .get =>
    { typingUsers := typingUsers, published := [], errors := [],
      response := some (getTyping typingUsers) }
  | .tick now publishOk => sweep now publishOk typingUsers

/-- Registry after a trace, oldest event first. -/
def run (tr : List Ev) (typingUsers : Registry) : Registry :=
  tr.foldl (fun reg e => (step reg e).typingUsers) typingUsers

/-- Every publish attempted along a trace, in order. -/
def emitted : List Ev → Registry → List TypingEvent
  | [], _ => []
  | e :: es, reg => (step reg e).published ++ emitted es (step reg e).typingUsers

/-- The typing signal an event carries when the handler accepts it: id, flag and the
time written to the registry. -/
def Ev.signal : Ev → Option (JsVal × Bool × Int)
  | .post (some req) now _ _ =>
    if req.username.truthy then
      match req.isTyping with
      | .bool b => some (req.username, b, now)
      | _ => none
    else none
  | _ => none

/-- The event is an accepted typing signal of `k`. -/
def Ev.signals (k : JsVal) (e : Ev) : Prop := ∃ b t, e.signal = some (k, b, t)

/-- The event is a tick of the sweep. -/
def Ev.isTick : Ev → Bool
  | .tick _ _ => true
  | _ => false

/-- The most recent signal of `k` in `tr` is `isTyping = true` at time `t`, and
`later` is what the server ran after it. -/
def LastTrueAt (k : JsVal) (t : Int) (tr later : List Ev) : Prop :=
  ∃ earlier e, tr = earlier ++ e :: later ∧ e.signal = some (k, true, t) ∧
    ∀ e2 ∈ later, ¬ e2.signals k

/-- The reading of the registry contents in the specification: the most recent
signal of `k` was `isTyping = true` and is younger than the timeout at time `T`. -/
def FreshAt (k : JsVal) (T : Int) (tr : List Ev) : Prop :=
  ∃ t later, LastTrueAt k t tr later ∧ T - t < TYPING_TIMEOUT

/-- The most recent signal of `k` was `isTyping = true` at `t` and no tick since
then ran at a time more than the timeout after `t`. -/
def UnsweptAt (k : JsVal) (t : Int) (tr : List Ev) : Prop :=
  ∃ later, LastTrueAt k t tr later ∧
    ∀ now ok, Ev.tick now ok ∈ later → ¬ (now - t > TYPING_TIMEOUT)

/-! ## The server with its interval timer -/

/-- Registry together with the due time of the next tick of `setInterval`. -/
structure Server where
  typingUsers : Registry
  nextSweep : Int
  deriving DecidableEq

/-- State when the module has been loaded at time `start`: empty map, first tick one
interval later. -/
def boot (start : Int) : Server := ⟨[], start + SWEEP_INTERVAL⟩

/-- Number of ticks due up to and including time `T`. -/
def ticksDue (nextSweep T : Int) : Nat :=
  if T < nextSweep then 0 else ((T - nextSweep) / SWEEP_INTERVAL).toNat + 1

/-- Runs `n` consecutive ticks, each at its due time. -/
def runTicks (publishOk : TypingEvent → Bool) : Nat → Server → Server
  | 0, s => s
  | n + 1, s =>
    runTicks publishOk n
      ⟨(sweep s.nextSweep publishOk s.typingUsers).typingUsers, s.nextSweep + SWEEP_INTERVAL⟩

/-- Lets the clock reach `T`: every tick due by then runs. -/
def advance (publishOk : TypingEvent → Bool) (T : Int) (s : Server) : Server :=
  runTicks publishOk (ticksDue s.nextSweep T) s

/-- A `POST /api/typing` together with its arrival time and the result of its publish. -/
structure TimedPost where
  time : Int
  body : Option TypingRequest
  publishOk : Bool
  deriving DecidableEq

/-- A `POST /api/typing` arriving at time `p.time`: the ticks due by then have run and
both `Date.now()` readings of the handler give `p.time`. -/
def postAt (sweepOk : TypingEvent → Bool) (s : Server) (p : TimedPost) : Server :=
  let s1 := advance sweepOk p.time s
  ⟨(postTyping p.body p.time p.time p.publishOk s1.typingUsers).typingUsers, s1.nextSweep⟩

/-- Server after the timed requests `reqs`, oldest first, since its start. -/
def serve (sweepOk : TypingEvent → Bool) (start : Int) (reqs : List TimedPost) : Server :=
  reqs.foldl (postAt sweepOk) (boot start)

/-- Entries a `GET /api/typing` at time `T` reads. -/
def entriesAt (publishOk : TypingEvent → Bool) (T : Int) (s : Server) : Registry :=
  (advance publishOk T s).typingUsers

/-- Invariant of the timed server at clock `T`: distinct keys, the next tick lies
within one interval after `T`, and no entry is older than timeout plus interval at
the next tick. -/
def ServerInv (T : Int) (s : Server) : Prop :=
  WF s.typingUsers ∧ T < s.nextSweep ∧ s.nextSweep ≤ T + 5000 ∧
    ∀ e ∈ s.typingUsers, s.nextSweep - e.2 ≤ 8000

/-! ## The client reconciler: `typingHandler` of `App.jsx` -/

/-- Fields of an inbound channel message the handler reads: `message.name`,
`message.data.username` and `message.data.isTyping`. Every publisher of the
repository sends a boolean `isTyping`. -/
structure Message where
  name : String
  username : JsVal
  isTyping : Bool
  deriving DecidableEq

/-- Delay of the `setTimeout` of the handler. -/
def CLIENT_TIMEOUT : Int := 3000

/-- Client state: the `typingUsers` set in insertion order and the pending
`setTimeout` callbacks, each with its due time and the username it captured. -/
structure Client where
  typingUsers : List JsVal
  timers : List (Int × JsVal)
  deriving DecidableEq

/-- The call `newSet.add(u)`. -/
def setAdd (u : JsVal) (s : List JsVal) : List JsVal :=
  if u ∈ s then s else s ++ [u]

/-- The call `newSet.delete(u)`. -/
def setDelete (u : JsVal) (s : List JsVal) : List JsVal :=
  s.filter (fun x => decide (x ≠ u))

/-- The call `typingHandler(message)` run at time `now` by the user `username`. The
effect subscribes the handler only once the client exists and the username is set
(the early return of `App.jsx` lines 48 to 54; the comment above it words the
condition the other way round), so `username` is fixed while the handler runs. The
client is created with `echoMessages: false` (the comment above that option says
echoing is enabled), hence the guard on `message.data.username`, not the echo, is
what drops events that name the local user. -/
def typingHandler (username : String) (message : Message) (now : Int) (c : Client) : Client :=
  if message.name = "typing" ∧ message.username ≠ .str username then
    { typingUsers :=
        if message.isTyping then setAdd message.username c.typingUsers
        else setDelete message.username c.typingUsers,
      timers :=
        if message.isTyping then c.timers ++ [(now + CLIENT_TIMEOUT, message.username)]
        else c.timers }
  else c

/-- The callback handed to `setTimeout`. -/
def timeoutCallback (u : JsVal) (typingUsers : List JsVal) : List JsVal :=
  setDelete u typingUsers

/-- Lets the clock reach `T`: every pending callback due by then runs, in queue order. -/
def fireDue (T : Int) (c : Client) : Client :=
  { typingUsers :=
      (c.timers.filter (fun p => decide (p.1 ≤ T))).foldl
        (fun s p => timeoutCallback p.2 s) c.typingUsers,
    timers := c.timers.filter (fun p => decide (¬ p.1 ≤ T)) }

/-- A message delivered at time `p.1`. -/
def receive (username : String) (c : Client) (p : Int × Message) : Client :=
  typingHandler username p.2 p.1 (fireDue p.1 c)

/-- Client after the timed messages `msgs`, oldest first. -/
def runClient (username : String) (msgs : List (Int × Message)) : Client :=
  msgs.foldl (receive username) ⟨[], []⟩

/-- The set the component renders at time `T`. -/
def displayed (T : Int) (c : Client) : List JsVal := (fireDue T c).typingUsers

/-! ## Lemmas on the map operations -/

theorem mem_keys_iff (k : JsVal) (m : Registry) : k ∈ keys m ↔ ∃ v, (k, v) ∈ m := by
  simp [keys]

theorem mapGet_eq_none_iff (k : JsVal) (m : Registry) : mapGet k m = none ↔ k ∉ keys m := by
  induction m with
  | nil => simp [mapGet, keys]
  | cons e rest ih =>
    obtain ⟨k1, v1⟩ := e
    by_cases h : k1 = k
    · simp [mapGet, keys, h]
    · have h2 : ¬ k = k1 := fun h3 => h h3.symm
      simp only [mapGet, h, if_false, ih]
      simp [keys, h2]

theorem mapGet_some_mem {k : JsVal} {v : Int} {m : Registry} (h : mapGet k m = some v) :
    (k, v) ∈ m := by
  induction m with
  | nil => simp [mapGet] at h
  | cons e rest ih =>
    obtain ⟨k1, v1⟩ := e
    by_cases h1 : k1 = k
    · simp only [mapGet, h1, if_true, Option.some.injEq] at h
      simp [h1, h]
    · simp only [mapGet, h1, if_false] at h
      exact List.mem_cons_of_mem _ (ih h)

theorem mapGet_of_mem {k : JsVal} {v : Int} {m : Registry} (hwf : WF m) (h : (k, v) ∈ m) :
    mapGet k m = some v := by
  induction m with
  | nil => simp at h
  | cons e rest ih =>
    obtain ⟨k1, v1⟩ := e
    have hnd : k1 ∉ keys rest ∧ WF rest := by
      simpa [WF, keys] using hwf
    rcases List.mem_cons.1 h with h1 | h1
    · cases h1
      simp [mapGet]
    · have hk : k ∈ keys rest := (mem_keys_iff k rest).2 ⟨v, h1⟩
      have hne : k1 ≠ k := fun h2 => hnd.1 (h2 ▸ hk)
      simp only [mapGet, hne, if_false]
      exact ih hnd.2 h1

theorem mapGet_mapSet_self (k : JsVal) (v : Int) (m : Registry) :
    mapGet k (mapSet k v m) = some v := by
  induction m with
  | nil => simp [mapSet, mapGet]
  | cons e rest ih =>
    obtain ⟨k1, v1⟩ := e
    by_cases h : k1 = k
    · simp [mapSet, mapGet, h]
    · simp [mapSet, mapGet, h, ih]

theorem mapGet_mapSet_ne {k k2 : JsVal} (v : Int) (m : Registry) (hne : k2 ≠ k) :
    mapGet k2 (mapSet k v m) = mapGet k2 m := by
  have hne2 : ¬ k = k2 := fun h => hne h.symm
  induction m with
  | nil => simp [mapSet, mapGet, hne2]
  | cons e rest ih =>
    obtain ⟨k1, v1⟩ := e
    by_cases h : k1 = k
    · subst h
      simp [mapSet, mapGet, hne2]
    · by_cases h3 : k1 = k2
      · subst h3
        simp [mapSet, mapGet, h]
      · simp [mapSet, mapGet, h, h3, ih]

theorem mapDelete_nil (k : JsVal) : mapDelete k [] = [] := rfl

theorem mapDelete_cons_self (k : JsVal) (v : Int) (rest : Registry) :
    mapDelete k ((k, v) :: rest) = mapDelete k rest := by
  simp [mapDelete]

theorem mapDelete_cons_ne {k k1 : JsVal} (v : Int) (rest : Registry) (h : k1 ≠ k) :
    mapDelete k ((k1, v) :: rest) = (k1, v) :: mapDelete k rest := by
  simp [mapDelete, h]

theorem mem_mapDelete (k : JsVal) (e : JsVal × Int) (m : Registry) :
    e ∈ mapDelete k m ↔ e ∈ m ∧ e.1 ≠ k := by
  simp [mapDelete]

theorem mapGet_mapDelete_self (k : JsVal) (m : Registry) : mapGet k (mapDelete k m) = none := by
  rw [mapGet_eq_none_iff, mem_keys_iff]
  rintro ⟨v, hv⟩
  exact ((mem_mapDelete k (k, v) m).1 hv).2 rfl

theorem mapGet_mapDelete_ne {k k2 : JsVal} (m : Registry) (hne : k2 ≠ k) :
    mapGet k2 (mapDelete k m) = mapGet k2 m := by
  induction m with
  | nil => rfl
  | cons e rest ih =>
    obtain ⟨k1, v1⟩ := e
    by_cases h : k1 = k
    · subst h
      have h3 : ¬ k1 = k2 := fun h4 => hne h4.symm
      rw [mapDelete_cons_self, ih]
      simp [mapGet, h3]
    · rw [mapDelete_cons_ne v1 rest h]
      by_cases h3 : k1 = k2
      · simp [mapGet, h3]
      · simp [mapGet, h3, ih]

theorem keys_mapSet (k : JsVal) (v : Int) (m : Registry) :
    keys (mapSet k v m) = if k ∈ keys m then keys m else keys m ++ [k] := by
  induction m with
  | nil => simp [mapSet, keys]
  | cons e rest ih =>
    obtain ⟨k1, v1⟩ := e
    by_cases h : k1 = k
    · simp [mapSet, keys, h]
    · have h2 : ¬ k = k1 := fun h3 => h h3.symm
      have ih2 : List.map Prod.fst (mapSet k v rest) =
          if k ∈ List.map Prod.fst rest then List.map Prod.fst rest
          else List.map Prod.fst rest ++ [k] := ih
      simp only [mapSet, h, if_false, keys, List.map_cons, List.mem_cons, h2, false_or, ih2]
      split <;> simp

theorem WF_mapSet (k : JsVal) (v : Int) {m : Registry} (hwf : WF m) : WF (mapSet k v m) := by
  unfold WF at *
  rw [keys_mapSet]
  split
  · exact hwf
  · rename_i h
    exact List.Nodup.append hwf (List.nodup_singleton k) (by simpa using h)

theorem WF_mapDelete (k : JsVal) {m : Registry} (hwf : WF m) : WF (mapDelete k m) := by
  unfold WF keys mapDelete at *
  exact (List.Nodup.sublist (List.Sublist.map _ (List.filter_sublist m)) hwf)

/-! ## Lemmas on the sweep -/

theorem sweepLoop_typingUsers (now : Int) (publishOk : TypingEvent → Bool)
    (l : List (JsVal × Int)) (acc : Outcome) :
    (sweepLoop now publishOk l acc).typingUsers =
      acc.typingUsers.filter (fun e =>
        decide (e.1 ∉ keys (l.filter (fun x => decide (now - x.2 > TYPING_TIMEOUT))))) := by
  induction l generalizing acc with
  | nil => simp [sweepLoop, keys]
  | cons x rest ih =>
    obtain ⟨u, ts⟩ := x
    by_cases h : now - ts > TYPING_TIMEOUT
    · have hf : List.filter (fun x => decide (now - x.2 > TYPING_TIMEOUT)) ((u, ts) :: rest) =
          (u, ts) :: List.filter (fun x => decide (now - x.2 > TYPING_TIMEOUT)) rest := by
        simp [h]
      simp only [sweepLoop, h, if_true, ih, mapDelete, List.filter_filter, hf]
      apply List.filter_congr
      intro e _
      rw [Bool.eq_iff_iff]
      simp [keys]
      tauto
    · simp only [sweepLoop, h, if_false, ih]
      apply List.filter_congr
      intro e _
      simp [keys, h]

theorem sweepLoop_published (now : Int) (publishOk : TypingEvent → Bool)
    (l : List (JsVal × Int)) (acc : Outcome) :
    (sweepLoop now publishOk l acc).published =
      acc.published ++
        (l.filter (fun x => decide (now - x.2 > TYPING_TIMEOUT))).map (fun x => stopEvent x.1) := by
  induction l generalizing acc with
  | nil => simp [sweepLoop]
  | cons x rest ih =>
    obtain ⟨u, ts⟩ := x
    by_cases h : now - ts > TYPING_TIMEOUT
    · simp [sweepLoop, h, ih]
    · simp [sweepLoop, h, ih]

theorem sweep_typingUsers {reg : Registry} (hwf : WF reg) (now : Int)
    (publishOk : TypingEvent → Bool) :
    (sweep now publishOk reg).typingUsers =
      reg.filter (fun e => decide (¬ (now - e.2 > TYPING_TIMEOUT))) := by
  unfold sweep
  rw [sweepLoop_typingUsers]
  apply List.filter_congr
  intro e he
  obtain ⟨k, ts⟩ := e
  have hget := mapGet_of_mem hwf he
  by_cases h : now - ts > TYPING_TIMEOUT
  · have : k ∈ keys (reg.filter (fun x => decide (now - x.2 > TYPING_TIMEOUT))) := by
      rw [mem_keys_iff]
      exact ⟨ts, by simp [he, h]⟩
    simp [this, h]
  · have : k ∉ keys (reg.filter (fun x => decide (now - x.2 > TYPING_TIMEOUT))) := by
      rw [mem_keys_iff]
      rintro ⟨v, hv⟩
      have hv2 := List.mem_filter.1 hv
      have hv3 := mapGet_of_mem hwf hv2.1
      rw [hget] at hv3
      cases hv3
      exact h (by simpa using hv2.2)
    simp [this, h]

theorem sweep_published (reg : Registry) (now : Int) (publishOk : TypingEvent → Bool) :
    (sweep now publishOk reg).published =
      (reg.filter (fun x => decide (now - x.2 > TYPING_TIMEOUT))).map (fun x => stopEvent x.1) := by
  unfold sweep
  rw [sweepLoop_published]
  simp

theorem sweep_sublist (reg : Registry) (now : Int) (publishOk : TypingEvent → Bool) :
    List.Sublist (sweep now publishOk reg).typingUsers reg := by
  unfold sweep
  rw [sweepLoop_typingUsers]
  exact List.filter_sublist _

theorem WF_sweep {reg : Registry} (hwf : WF reg) (now : Int) (publishOk : TypingEvent → Bool) :
    WF (sweep now publishOk reg).typingUsers := by
  unfold WF keys at *
  exact List.Nodup.sublist (List.Sublist.map _ (sweep_sublist reg now publishOk)) hwf

theorem countP_key_of_nodup (k : JsVal) (l : Registry) (hwf : WF l) :
    l.countP (fun e => decide (e.1 = k)) = if k ∈ keys l then 1 else 0 := by
  induction l with
  | nil => simp [keys]
  | cons e rest ih =>
    obtain ⟨k1, v1⟩ := e
    have hnd : k1 ∉ keys rest ∧ WF rest := by
      simpa [WF, keys] using hwf
    by_cases h : k1 = k
    · subst h
      have h0 := ih hnd.2
      simp only [hnd.1, if_false] at h0
      simp [keys, List.countP_cons, h0]
    · have h2 : ¬ k = k1 := fun h3 => h h3.symm
      have h0 := ih hnd.2
      simp only [List.countP_cons, h0, keys, List.map_cons, List.mem_cons, h2, false_or]
      simp [h]

theorem WF_filter {reg : Registry} (hwf : WF reg) (p : JsVal × Int → Bool) :
    WF (reg.filter p) := by
  unfold WF keys at *
  exact List.Nodup.sublist (List.Sublist.map _ (List.filter_sublist reg)) hwf

theorem mapGet_filter {reg : Registry} (hwf : WF reg) (p : JsVal × Int → Bool) (k : JsVal) :
    mapGet k (reg.filter p) = (mapGet k reg).filter (fun v => p (k, v)) := by
  induction reg with
  | nil => simp [mapGet]
  | cons e rest ih =>
    obtain ⟨k1, v1⟩ := e
    have hnd : k1 ∉ keys rest ∧ WF rest := by
      simpa [WF, keys] using hwf
    by_cases h : k1 = k
    · subst h
      have hnone : mapGet k1 (rest.filter p) = none := by
        rw [mapGet_eq_none_iff, mem_keys_iff]
        rintro ⟨v, hv⟩
        exact hnd.1 ((mem_keys_iff k1 rest).2 ⟨v, (List.mem_filter.1 hv).1⟩)
      by_cases hp : p (k1, v1) = true
      · simp [List.filter_cons, hp, mapGet, Option.filter]
      · simp [List.filter_cons, hp, mapGet, Option.filter, hnone]
    · by_cases hp : p (k1, v1) = true
      · simp [List.filter_cons, hp, mapGet, h, ih hnd.2]
      · simp [List.filter_cons, hp, mapGet, h, ih hnd.2]

theorem mapGet_sweep {reg : Registry} (hwf : WF reg) (now : Int)
    (publishOk : TypingEvent → Bool) (k : JsVal) :
    mapGet k (sweep now publishOk reg).typingUsers =
      (mapGet k reg).filter (fun ts => decide (¬ (now - ts > TYPING_TIMEOUT))) := by
  rw [sweep_typingUsers hwf, mapGet_filter hwf]

/-! ## Lemmas on traces -/

theorem run_snoc (tr : List Ev) (e : Ev) (reg : Registry) :
    run (tr ++ [e]) reg = (step (run tr reg) e).typingUsers := by
  simp [run, List.foldl_append]

theorem run_cons (tr : List Ev) (e : Ev) (reg : Registry) :
    run (e :: tr) reg = run tr (step reg e).typingUsers := rfl

/-- The handler either leaves the map alone and publishes nothing, or the request is an
accepted signal: it updates the entry of its username and attempts one publish. -/
theorem postTyping_cases (body : Option TypingRequest) (now nowPub : Int) (ok : Bool)
    (reg : Registry) :
    ((Ev.post body now nowPub ok).signal = none ∧
      (postTyping body now nowPub ok reg).typingUsers = reg ∧
      (postTyping body now nowPub ok reg).published = []) ∨
    ∃ u b, body = some ⟨u, .bool b⟩ ∧ u.truthy = true ∧
      (Ev.post body now nowPub ok).signal = some (u, b, now) ∧
      (postTyping body now nowPub ok reg).typingUsers =
        (if b then mapSet u now reg else mapDelete u reg) ∧
      (postTyping body now nowPub ok reg).published = [⟨u, b, some nowPub⟩] := by
  cases body with
  | none => left; simp [Ev.signal, postTyping]
  | some req =>
    obtain ⟨u, ty⟩ := req
    by_cases hu : u.truthy = true
    · cases ty with
      | bool b =>
        right
        refine ⟨u, b, rfl, hu, by simp [Ev.signal, hu], ?_, ?_⟩ <;>
          cases ok <;> cases hs : u.stringifies <;> simp [postTyping, hu, hs]
      | undefined => left; simp [Ev.signal, postTyping, hu]
      | null => left; simp [Ev.signal, postTyping, hu]
      | num n => left; simp [Ev.signal, postTyping, hu]
      | str s => left; simp [Ev.signal, postTyping, hu]
      | obj r p => left; simp [Ev.signal, postTyping, hu]
    · left; simp [Ev.signal, postTyping, hu]

theorem WF_postTyping (body : Option TypingRequest) (now nowPub : Int) (publishOk : Bool)
    {reg : Registry} (hwf : WF reg) :
    WF (postTyping body now nowPub publishOk reg).typingUsers := by
  rcases postTyping_cases body now nowPub publishOk reg with ⟨_, h, _⟩ | ⟨u, b, _, _, _, h, _⟩
  · rw [h]
    exact hwf
  · rw [h]
    cases b
    · simpa using WF_mapDelete u hwf
    · simpa using WF_mapSet u now hwf

theorem WF_step (e : Ev) {reg : Registry} (hwf : WF reg) : WF (step reg e).typingUsers := by
  cases e with
  | post req now nowPub ok => exact WF_postTyping req now nowPub ok hwf
  | get => exact hwf
  | tick now ok => exact WF_sweep hwf now ok

theorem WF_run (tr : List Ev) {reg : Registry} (hwf : WF reg) : WF (run tr reg) := by
  induction tr generalizing reg with
  | nil => exact hwf
  | cons e es ih => exact ih (WF_step e hwf)

theorem WF_nil : WF [] := by simp [WF, keys]

/-- An accepted signal of `k` writes or deletes the entry of `k`. -/
theorem step_of_signal {k : JsVal} {b : Bool} {t : Int} {e : Ev} (reg : Registry)
    (h : e.signal = some (k, b, t)) :
    (step reg e).typingUsers = (if b then mapSet k t reg else mapDelete k reg) ∧
    ∀ ev ∈ (step reg e).published, ev.username = k ∧ ev.isTyping = b ∧ ev.timestamp ≠ none := by
  cases e with
  | get => simp [Ev.signal] at h
  | tick now ok => simp [Ev.signal] at h
  | post body now nowPub ok =>
    rcases postTyping_cases body now nowPub ok reg with ⟨h0, _, _⟩ | ⟨u, b2, _, _, hsig, h1, h2⟩
    · rw [h0] at h
      cases h
    · rw [hsig] at h
      simp only [Option.some.injEq, Prod.mk.injEq] at h
      obtain ⟨rfl, rfl, rfl⟩ := h
      refine ⟨h1, ?_⟩
      intro ev hev
      simp only [step, h2, List.mem_singleton] at hev
      subst hev
      simp

theorem mapGet_step_of_signal {k : JsVal} {b : Bool} {t : Int} {e : Ev} (reg : Registry)
    (h : e.signal = some (k, b, t)) :
    mapGet k (step reg e).typingUsers = if b then some t else none := by
  rw [(step_of_signal reg h).1]
  cases b
  · simp [mapGet_mapDelete_self]
  · simp [mapGet_mapSet_self]

/-- A request that is no accepted signal of `k` changes nothing or is a signal of
another id. -/
theorem post_not_signals {k : JsVal} {body : Option TypingRequest} {now nowPub : Int}
    {ok : Bool} (h : ¬ (Ev.post body now nowPub ok).signals k) (reg : Registry) :
    ((postTyping body now nowPub ok reg).typingUsers = reg ∧
      (postTyping body now nowPub ok reg).published = []) ∨
    ∃ u b, u ≠ k ∧ (Ev.post body now nowPub ok).signal = some (u, b, now) := by
  rcases postTyping_cases body now nowPub ok reg with ⟨_, h1, h2⟩ | ⟨u, b, _, _, hsig, _, _⟩
  · exact Or.inl ⟨h1, h2⟩
  · right
    refine ⟨u, b, ?_, hsig⟩
    rintro rfl
    exact h ⟨b, now, hsig⟩

theorem mapGet_step_of_not_signals {k : JsVal} {e : Ev} (reg : Registry)
    (h : ¬ e.signals k) (ht : e.isTick = false) :
    mapGet k (step reg e).typingUsers = mapGet k reg := by
  cases e with
  | get => rfl
  | tick now ok => simp [Ev.isTick] at ht
  | post req now nowPub ok =>
    rcases post_not_signals h reg with h1 | ⟨u, b, hne, hsig⟩
    · simp [step, h1.1]
    · rw [(step_of_signal reg hsig).1]
      cases b
      · simpa using mapGet_mapDelete_ne reg (Ne.symm hne)
      · simpa using mapGet_mapSet_ne now reg (Ne.symm hne)

/-- An entry survives a trace with no signal of its id in which every tick runs at most
the timeout after its timestamp. -/
theorem mapGet_run_of_quiet {k : JsVal} {t0 : Int} (tr : List Ev) (reg : Registry)
    (hwf : WF reg) (hget : mapGet k reg = some t0)
    (h : ∀ e ∈ tr, ¬ e.signals k ∧ ∀ now ok, e = Ev.tick now ok → now - t0 ≤ 3000) :
    mapGet k (run tr reg) = some t0 := by
  induction tr generalizing reg with
  | nil => exact hget
  | cons e es ih =>
    rw [run_cons]
    have he := h e (List.mem_cons_self _ _)
    apply ih _ (WF_step e hwf) _ (fun x hx => h x (List.mem_cons_of_mem _ hx))
    cases e with
    | tick now ok =>
      have hle := he.2 now ok rfl
      have hexp : ¬ (now - t0 > TYPING_TIMEOUT) := by
        simp only [TYPING_TIMEOUT]
        omega
      simp only [step]
      rw [mapGet_sweep hwf, hget]
      simp [Option.filter, hexp]
    | get => exact hget
    | post req now nowPub ok =>
      rw [mapGet_step_of_not_signals reg he.1 rfl]
      exact hget

theorem absent_step_of_not_signals {k : JsVal} {e : Ev} {reg : Registry}
    (h : ¬ e.signals k) (habs : k ∉ keys reg) :
    k ∉ keys (step reg e).typingUsers ∧ ∀ ev ∈ (step reg e).published, ev.username ≠ k := by
  cases e with
  | get => exact ⟨habs, by simp [step]⟩
  | tick now ok =>
    constructor
    · intro hk
      exact habs ((List.Sublist.map _ (sweep_sublist reg now ok)).subset hk)
    · intro ev hev
      simp only [step, sweep_published, List.mem_map, List.mem_filter] at hev
      obtain ⟨x, hx, rfl⟩ := hev
      intro hk
      exact habs ((mem_keys_iff k reg).2 ⟨x.2, by simpa [stopEvent] using hk ▸ hx.1⟩)
  | post req now nowPub ok =>
    constructor
    · rw [← mapGet_eq_none_iff, mapGet_step_of_not_signals reg h rfl, mapGet_eq_none_iff]
      exact habs
    · rcases post_not_signals h reg with h1 | ⟨u, b, hne, hsig⟩
      · simp [step, h1.2]
      · intro ev hev
        rw [((step_of_signal reg hsig).2 ev hev).1]
        exact hne

theorem emitted_of_absent {k : JsVal} (tr : List Ev) (reg : Registry)
    (h : ∀ e ∈ tr, ¬ e.signals k) (habs : k ∉ keys reg) :
    ∀ ev ∈ emitted tr reg, ev.username ≠ k := by
  induction tr generalizing reg with
  | nil => simp [emitted]
  | cons e es ih =>
    have h1 := absent_step_of_not_signals (h e (List.mem_cons_self _ _)) habs
    intro ev hev
    simp only [emitted, List.mem_append] at hev
    rcases hev with hev | hev
    · exact h1.2 ev hev
    · exact ih _ (fun x hx => h x (List.mem_cons_of_mem _ hx)) h1.1 ev hev

/-! ## Claims on the POST handler -/

/-- C1, as stated, fails: a username that is not a string but truthy (here the number
42) passes the `!username` guard; the request is answered 200, the registry gains an
entry and an event is published. -/
theorem postTyping_accepts_truthy_nonstring :
    (∀ s, JsVal.num 42 ≠ JsVal.str s) ∧
    (postTyping (some ⟨.num 42, .bool true⟩) 1000 1000 true []).response =
      some ⟨200, .success "Typing indicator sent" [.num 42]⟩ ∧
    (postTyping (some ⟨.num 42, .bool true⟩) 1000 1000 true []).typingUsers = [(.num 42, 1000)] ∧
    (postTyping (some ⟨.num 42, .bool true⟩) 1000 1000 true []).published =
      [⟨.num 42, true, some 1000⟩] := by
  refine ⟨fun s h => JsVal.noConfusion h, ?_, ?_, ?_⟩ <;> decide

/-- C1, amended: a request whose body was parsed to an object and whose username is
falsy (missing, null, false, 0 or the empty string) or whose isTyping is not a boolean
is answered 400; a request whose `req.body` is undefined makes the destructuring throw
and is answered 500 by the `catch` block; in both cases the registry after the request
is the registry before it and nothing is published. -/
theorem postTyping_rejects_invalid (body : Option TypingRequest) (now nowPub : Int)
    (publishOk : Bool) (reg : Registry)
    (h : body = none ∨ ∃ req, body = some req ∧
      (req.username ∈ [JsVal.undefined, .null, .bool false, .num 0, .str ""] ∨
        ∀ b, req.isTyping ≠ .bool b)) :
    (body = none → (postTyping body now nowPub publishOk reg).response =
      some ⟨500, .error "Failed to send typing indicator"⟩) ∧
    (body ≠ none →
      ∃ msg, (postTyping body now nowPub publishOk reg).response = some ⟨400, .error msg⟩) ∧
    (postTyping body now nowPub publishOk reg).typingUsers = reg ∧
    (postTyping body now nowPub publishOk reg).published = [] := by
  rcases h with rfl | ⟨req, rfl, h⟩
  · simp [postTyping]
  · obtain ⟨u, t⟩ := req
    refine ⟨fun h0 => Option.noConfusion h0, fun _ => ?_, ?_, ?_⟩ <;>
    · by_cases hu : u.truthy = true
      · rcases h with h | h
        · simp only [List.mem_cons, List.mem_singleton, List.not_mem_nil, or_false] at h
          rcases h with h | h | h | h | h <;> subst h <;> simp [JsVal.truthy] at hu
        · cases t with
          | bool b => exact absurd rfl (h b)
          | undefined => simp [postTyping, hu]
          | null => simp [postTyping, hu]
          | num n => simp [postTyping, hu]
          | str s => simp [postTyping, hu]
          | obj r p => simp [postTyping, hu]
      · simp [postTyping, hu]

/-- Witness of C1 amended: scenario C, where isTyping is the string yes and the
username is missing, and a request whose `req.body` is undefined. -/
theorem postTyping_rejects_invalid_witness :
    ((∃ msg, (postTyping (some ⟨.undefined, .str "yes"⟩) 500 500 true
        [(.str "bob", 0)]).response = some ⟨400, .error msg⟩) ∧
      (postTyping (some ⟨.undefined, .str "yes"⟩) 500 500 true [(.str "bob", 0)]).typingUsers =
        [(.str "bob", 0)] ∧
      (postTyping (some ⟨.undefined, .str "yes"⟩) 500 500 true [(.str "bob", 0)]).published =
        []) ∧
    ((postTyping none 500 500 true [(.str "bob", 0)]).response =
        some ⟨500, .error "Failed to send typing indicator"⟩ ∧
      (postTyping none 500 500 true [(.str "bob", 0)]).typingUsers = [(.str "bob", 0)] ∧
      (postTyping none 500 500 true [(.str "bob", 0)]).published = []) :=
  have h1 := postTyping_rejects_invalid (some ⟨.undefined, .str "yes"⟩) 500 500 true
    [(.str "bob", 0)] (Or.inr ⟨_, rfl, Or.inl (by decide)⟩)
  have h2 := postTyping_rejects_invalid none 500 500 true [(.str "bob", 0)] (Or.inl rfl)
  ⟨⟨h1.2.1 (by simp), h1.2.2.1, h1.2.2.2⟩, ⟨h2.1 rfl, h2.2.2.1, h2.2.2.2⟩⟩

/-- C2, as stated, fails: the publish is awaited inside the `try` block, so for a valid
request whose publish is rejected the `catch` block answers 500. -/
theorem postTyping_publish_failure_is_500 :
    (postTyping (some ⟨.str "alice", .bool true⟩) 0 0 false []).response =
      some ⟨500, .error "Failed to send typing indicator"⟩ ∧
    (postTyping (some ⟨.str "alice", .bool true⟩) 0 0 false []).response ≠
      some ⟨200, .success "Typing indicator sent" [.str "alice"]⟩ := by
  constructor <;> decide

/-- C2, amended: for a valid request (non-empty string username, boolean isTyping) a
failing publish gives the 500 response of the `catch` block, with no active-typist
list; a publish that succeeds gives 200 with success and the keys of the registry
after the mutation. -/
theorem postTyping_response_of_valid (s : String) (b : Bool) (now nowPub : Int)
    (reg : Registry) (hs : s ≠ "") :
    (postTyping (some ⟨.str s, .bool b⟩) now nowPub false reg).response =
      some ⟨500, .error "Failed to send typing indicator"⟩ ∧
    (postTyping (some ⟨.str s, .bool b⟩) now nowPub true reg).response =
      some ⟨200, .success "Typing indicator sent"
        (keys (postTyping (some ⟨.str s, .bool b⟩) now nowPub true reg).typingUsers)⟩ := by
  simp [postTyping, JsVal.truthy, JsVal.stringifies, hs]

/-- Witness of C2 amended. -/
theorem postTyping_response_of_valid_witness :
    (postTyping (some ⟨.str "alice", .bool true⟩) 0 1 false [(.str "bob", 0)]).response =
      some ⟨500, .error "Failed to send typing indicator"⟩ ∧
    (postTyping (some ⟨.str "alice", .bool true⟩) 0 1 true [(.str "bob", 0)]).response =
      some ⟨200, .success "Typing indicator sent"
        (keys (postTyping (some ⟨.str "alice", .bool true⟩) 0 1 true [(.str "bob", 0)]).typingUsers)⟩ :=
  postTyping_response_of_valid "alice" true 0 1 [(.str "bob", 0)] (by decide)

/-- C3: for a valid request whose publish fails the registry afterwards is the
registry with the mutation applied: the username maps to the current time when
isTyping is true and is absent when it is false, every other id keeps its entry,
and the response is the 500 of the failed publish. -/
theorem postTyping_keeps_mutation_on_publish_failure (s : String) (b : Bool)
    (now nowPub : Int) (reg : Registry) (hs : s ≠ "") :
    (postTyping (some ⟨.str s, .bool b⟩) now nowPub false reg).published =
      [⟨.str s, b, some nowPub⟩] ∧
    (postTyping (some ⟨.str s, .bool b⟩) now nowPub false reg).typingUsers =
      (if b then mapSet (.str s) now reg else mapDelete (.str s) reg) ∧
    mapGet (.str s) (postTyping (some ⟨.str s, .bool b⟩) now nowPub false reg).typingUsers =
      (if b then some now else none) ∧
    (∀ k, k ≠ .str s →
      mapGet k (postTyping (some ⟨.str s, .bool b⟩) now nowPub false reg).typingUsers = mapGet k reg) ∧
    (WF reg → WF (postTyping (some ⟨.str s, .bool b⟩) now nowPub false reg).typingUsers) := by
  have h : (postTyping (some ⟨.str s, .bool b⟩) now nowPub false reg).typingUsers =
      (if b then mapSet (.str s) now reg else mapDelete (.str s) reg) := by
    simp [postTyping, JsVal.truthy, JsVal.stringifies, hs]
  refine ⟨by simp [postTyping, JsVal.truthy, JsVal.stringifies, hs], h, ?_, ?_, ?_⟩
  · rw [h]
    cases b
    · simp [mapGet_mapDelete_self]
    · simp [mapGet_mapSet_self]
  · intro k hk
    rw [h]
    cases b
    · simpa using mapGet_mapDelete_ne reg hk
    · simpa using mapGet_mapSet_ne now reg hk
  · intro hwf
    rw [h]
    cases b
    · simpa using WF_mapDelete (.str s) hwf
    · simpa using WF_mapSet (.str s) now hwf

/-- Witness of C3, scenario D: alice signals at 1000 while bob is registered and the
publish fails. -/
theorem postTyping_keeps_mutation_on_publish_failure_witness :
    "alice" ≠ "" ∧
    (postTyping (some ⟨.str "alice", .bool true⟩) 1000 1001 false [(.str "bob", 0)]).typingUsers =
      [(.str "bob", 0), (.str "alice", 1000)] ∧
    mapGet (.str "alice")
      (postTyping (some ⟨.str "alice", .bool true⟩) 1000 1001 false [(.str "bob", 0)]).typingUsers =
      some 1000 :=
  have h := postTyping_keeps_mutation_on_publish_failure "alice" true 1000 1001
    [(.str "bob", 0)] (by decide)
  ⟨by decide, h.2.1.trans (by decide), h.2.2.1.trans (by decide)⟩

/-! ## Claims on the sweep -/

/-- C4: one tick of the sweep at time `now` keeps exactly the entries with
`now - lastSeenAt <= 3000`, in order and with their timestamps, removes the others,
attempts one isTyping=false publish for each removed id and none for any other id,
and neither the registry nor the attempts depend on which publishes fail. -/
theorem sweep_removes_exactly_expired (reg : Registry) (now : Int)
    (publishOk : TypingEvent → Bool) (hwf : WF reg) :
    (sweep now publishOk reg).typingUsers =
      reg.filter (fun e => decide (¬ (now - e.2 > 3000))) ∧
    (sweep now publishOk reg).published =
      (reg.filter (fun e => decide (now - e.2 > 3000))).map (fun e => stopEvent e.1) ∧
    (∀ k ts, (k, ts) ∈ reg →
      (sweep now publishOk reg).published.countP (fun ev => decide (ev.username = k)) =
        if now - ts > 3000 then 1 else 0) ∧
    (∀ ev ∈ (sweep now publishOk reg).published,
      ev.isTyping = false ∧ ∃ ts, (ev.username, ts) ∈ reg ∧ now - ts > 3000) ∧
    (∀ publishOk2 : TypingEvent → Bool,
      (sweep now publishOk2 reg).typingUsers = (sweep now publishOk reg).typingUsers ∧
      (sweep now publishOk2 reg).published = (sweep now publishOk reg).published) := by
  have hT : TYPING_TIMEOUT = 3000 := rfl
  have h1 := sweep_typingUsers hwf now publishOk
  have h2 := sweep_published reg now publishOk
  rw [hT] at h1 h2
  refine ⟨h1, h2, ?_, ?_, ?_⟩
  · intro k ts hmem
    rw [h2, List.countP_map]
    have hc := countP_key_of_nodup k _
      (WF_filter hwf (fun e => decide (now - e.2 > 3000)))
    have hfun : ((fun ev : TypingEvent => decide (ev.username = k)) ∘
        fun e : JsVal × Int => stopEvent e.1) = fun e => decide (e.1 = k) := by
      funext e
      simp [stopEvent]
    rw [hfun, hc]
    have hget := mapGet_of_mem hwf hmem
    by_cases hexp : now - ts > 3000
    · have : k ∈ keys (reg.filter (fun e => decide (now - e.2 > 3000))) :=
        (mem_keys_iff _ _).2 ⟨ts, by simp [hmem, hexp]⟩
      simp [this, hexp]
    · have : k ∉ keys (reg.filter (fun e => decide (now - e.2 > 3000))) := by
        rw [mem_keys_iff]
        rintro ⟨v, hv⟩
        have hv2 := List.mem_filter.1 hv
        have hv3 := mapGet_of_mem hwf hv2.1
        rw [hget] at hv3
        cases hv3
        exact hexp (by simpa using hv2.2)
      simp [this, hexp]
  · intro ev hev
    rw [h2] at hev
    simp only [List.mem_map, List.mem_filter] at hev
    obtain ⟨x, hx, rfl⟩ := hev
    exact ⟨rfl, x.2, hx.1, by simpa using hx.2⟩
  · intro publishOk2
    rw [sweep_typingUsers hwf now publishOk2, sweep_published reg now publishOk2,
      sweep_typingUsers hwf now publishOk, sweep_published reg now publishOk]
    exact ⟨rfl, rfl⟩

/-- Witness of C4: alice is stale at 4000, bob is not, and every publish fails. -/
theorem sweep_removes_exactly_expired_witness :
    (sweep 4000 (fun _ => false) [(.str "alice", 0), (.str "bob", 1000)]).typingUsers =
      [(.str "bob", 1000)] ∧
    (sweep 4000 (fun _ => false) [(.str "alice", 0), (.str "bob", 1000)]).published =
      [stopEvent (.str "alice")] :=
  ⟨(sweep_removes_exactly_expired [(.str "alice", 0), (.str "bob", 1000)] 4000
      (fun _ => false) (by decide)).1.trans (by decide),
    (sweep_removes_exactly_expired [(.str "alice", 0), (.str "bob", 1000)] 4000
      (fun _ => false) (by decide)).2.1.trans (by decide)⟩

/-- C5: after a valid isTyping=true signal of `id` at `t0` and anything that is no
signal of `id` and no tick later than 3000 ms after `t0`, a query still lists `id`;
the first tick at a time `now` with `now - t0 > 3000` evicts `id` and attempts
exactly one publish for it, the stop event; and whatever runs afterwards without a
new signal of `id`, ticks included, publishes nothing more for `id`. -/
theorem stale_typist_evicted_once (reg : Registry) (id : JsVal) (t0 now nowPub : Int)
    (ok : Bool) (others later : List Ev) (sweepOk : TypingEvent → Bool)
    (hwf : WF reg) (hid : id.truthy = true) (hnow : now - t0 > 3000)
    (hothers : ∀ e ∈ others, ¬ e.signals id ∧ ∀ s o, e = Ev.tick s o → s - t0 ≤ 3000)
    (hlater : ∀ e ∈ later, ¬ e.signals id) :
    id ∈ keys (run others (postTyping (some ⟨id, .bool true⟩) t0 nowPub ok reg).typingUsers) ∧
    getTyping (run others (postTyping (some ⟨id, .bool true⟩) t0 nowPub ok reg).typingUsers) =
      ⟨200, .typingUsers
        (keys (run others (postTyping (some ⟨id, .bool true⟩) t0 nowPub ok reg).typingUsers))⟩ ∧
    id ∉ keys (sweep now sweepOk
      (run others (postTyping (some ⟨id, .bool true⟩) t0 nowPub ok reg).typingUsers)).typingUsers ∧
    (sweep now sweepOk
      (run others (postTyping (some ⟨id, .bool true⟩) t0 nowPub ok reg).typingUsers)).published.countP
        (fun ev => decide (ev.username = id)) = 1 ∧
    stopEvent id ∈ (sweep now sweepOk
      (run others (postTyping (some ⟨id, .bool true⟩) t0 nowPub ok reg).typingUsers)).published ∧
    ∀ ev ∈ emitted later (sweep now sweepOk
      (run others (postTyping (some ⟨id, .bool true⟩) t0 nowPub ok reg).typingUsers)).typingUsers,
      ev.username ≠ id := by
  have hsig : (Ev.post (some ⟨id, .bool true⟩) t0 nowPub ok).signal = some (id, true, t0) := by
    simp [Ev.signal, hid]
  have hpost : mapGet id (postTyping (some ⟨id, .bool true⟩) t0 nowPub ok reg).typingUsers = some t0 := by
    simpa [step] using mapGet_step_of_signal reg hsig
  have hwf1 : WF (postTyping (some ⟨id, .bool true⟩) t0 nowPub ok reg).typingUsers :=
    WF_postTyping _ _ _ _ hwf
  generalize (postTyping (some ⟨id, .bool true⟩) t0 nowPub ok reg).typingUsers = r1 at hpost hwf1 ⊢
  have hget : mapGet id (run others r1) = some t0 :=
    mapGet_run_of_quiet others r1 hwf1 hpost hothers
  have hwf2 : WF (run others r1) := WF_run others hwf1
  generalize run others r1 = r2 at hget hwf2 ⊢
  have hmem : (id, t0) ∈ r2 := mapGet_some_mem hget
  have hgone : id ∉ keys (sweep now sweepOk r2).typingUsers := by
    rw [← mapGet_eq_none_iff, mapGet_sweep hwf2, hget]
    have : now - t0 > TYPING_TIMEOUT := hnow
    simp [Option.filter, this]
  have hpub := sweep_published r2 now sweepOk
  have hin : (id, t0) ∈ r2.filter (fun x => decide (now - x.2 > TYPING_TIMEOUT)) := by
    have : now - t0 > TYPING_TIMEOUT := hnow
    simp [hmem, this]
  refine ⟨(mem_keys_iff id r2).2 ⟨t0, hmem⟩, rfl, hgone, ?_, ?_, ?_⟩
  · rw [hpub, List.countP_map]
    have hfun : ((fun ev : TypingEvent => decide (ev.username = id)) ∘
        fun e : JsVal × Int => stopEvent e.1) = fun e => decide (e.1 = id) := by
      funext e
      simp [stopEvent]
    rw [hfun, countP_key_of_nodup id _ (WF_filter hwf2 _)]
    simp [(mem_keys_iff id _).2 ⟨t0, hin⟩]
  · rw [hpub]
    exact List.mem_map.2 ⟨(id, t0), hin, rfl⟩
  · exact emitted_of_absent later _ hlater hgone

/-- Witness of C5, scenario A: alice signals at 0, bob at 500, a query at 1000, an
early tick at 2500, the tick at 4000, then a later tick and a signal of bob. -/
theorem stale_typist_evicted_once_witness :
    JsVal.str "alice" ∈ keys (run
      [Ev.post (some ⟨.str "bob", .bool true⟩) 500 500 true, Ev.get, Ev.tick 2500 (fun _ => true)]
      (postTyping (some ⟨.str "alice", .bool true⟩) 0 0 true []).typingUsers) ∧
    JsVal.str "alice" ∉ keys (sweep 4000 (fun _ => true)
      (run [Ev.post (some ⟨.str "bob", .bool true⟩) 500 500 true, Ev.get, Ev.tick 2500 (fun _ => true)]
        (postTyping (some ⟨.str "alice", .bool true⟩) 0 0 true []).typingUsers)).typingUsers ∧
    (sweep 4000 (fun _ => true)
      (run [Ev.post (some ⟨.str "bob", .bool true⟩) 500 500 true, Ev.get, Ev.tick 2500 (fun _ => true)]
        (postTyping (some ⟨.str "alice", .bool true⟩) 0 0 true []).typingUsers)).published.countP
        (fun ev => decide (ev.username = JsVal.str "alice")) = 1 :=
  have h := stale_typist_evicted_once [] (.str "alice") 0 4000 0 true
    [Ev.post (some ⟨.str "bob", .bool true⟩) 500 500 true, Ev.get, Ev.tick 2500 (fun _ => true)]
    [Ev.tick 9000 (fun _ => true), Ev.post (some ⟨.str "bob", .bool true⟩) 9500 9500 true]
    (fun _ => true) (by decide) (by decide) (by decide)
    (by
      intro e he
      simp only [List.mem_cons, List.mem_singleton, List.not_mem_nil, or_false] at he
      rcases he with rfl | rfl | rfl
      · exact ⟨fun ⟨b, t, h⟩ => by simp [Ev.signal, JsVal.truthy] at h,
          fun s o h => Ev.noConfusion h⟩
      · exact ⟨fun ⟨b, t, h⟩ => by simp [Ev.signal] at h, fun s o h => Ev.noConfusion h⟩
      · refine ⟨fun ⟨b, t, h⟩ => by simp [Ev.signal] at h, fun s o h => ?_⟩
        cases h
        decide)
    (by
      intro e he
      simp only [List.mem_cons, List.mem_singleton, List.not_mem_nil, or_false] at he
      rcases he with rfl | rfl
      · exact fun ⟨b, t, h⟩ => by simp [Ev.signal] at h
      · exact fun ⟨b, t, h⟩ => by simp [Ev.signal, JsVal.truthy] at h)
  ⟨h.1, h.2.2.1, h.2.2.2.1⟩

/-- C6: a valid isTyping=false signal of `id` leaves `id` absent whether or not it was
present, leaves every other entry as it was, sending it again changes nothing, and
no tick run afterwards (nor anything else short of a new signal of `id`) publishes
an event for `id`. -/
theorem stop_signal_removes_id (reg : Registry) (id : JsVal) (now nowPub : Int) (ok : Bool)
    (later : List Ev) (hid : id.truthy = true) (hlater : ∀ e ∈ later, ¬ e.signals id) :
    id ∉ keys (postTyping (some ⟨id, .bool false⟩) now nowPub ok reg).typingUsers ∧
    (∀ e : JsVal × Int, e.1 ≠ id →
      (e ∈ (postTyping (some ⟨id, .bool false⟩) now nowPub ok reg).typingUsers ↔ e ∈ reg)) ∧
    (∀ k, k ≠ id →
      mapGet k (postTyping (some ⟨id, .bool false⟩) now nowPub ok reg).typingUsers = mapGet k reg) ∧
    (∀ (now2 nowPub2 : Int) (ok2 : Bool),
      (postTyping (some ⟨id, .bool false⟩) now2 nowPub2 ok2
        (postTyping (some ⟨id, .bool false⟩) now nowPub ok reg).typingUsers).typingUsers =
      (postTyping (some ⟨id, .bool false⟩) now nowPub ok reg).typingUsers) ∧
    (∀ (now3 : Int) (sweepOk : TypingEvent → Bool),
      ∀ ev ∈ (sweep now3 sweepOk
        (postTyping (some ⟨id, .bool false⟩) now nowPub ok reg).typingUsers).published,
        ev.username ≠ id) ∧
    ∀ ev ∈ emitted later (postTyping (some ⟨id, .bool false⟩) now nowPub ok reg).typingUsers,
      ev.username ≠ id := by
  have hdel : ∀ (n np : Int) (o : Bool) (r : Registry),
      (postTyping (some ⟨id, .bool false⟩) n np o r).typingUsers = mapDelete id r := by
    intro n np o r
    cases o <;> cases hs : id.stringifies <;> simp [postTyping, hid, hs]
  have habs : id ∉ keys (mapDelete id reg) := by
    rw [← mapGet_eq_none_iff]
    exact mapGet_mapDelete_self id reg
  simp only [hdel]
  refine ⟨habs, ?_, ?_, ?_, ?_, ?_⟩
  · intro e he
    rw [mem_mapDelete]
    exact ⟨fun h => h.1, fun h => ⟨h, he⟩⟩
  · intro k hk
    exact mapGet_mapDelete_ne reg hk
  · intro _ _ _
    simp [mapDelete, List.filter_filter]
  · intro now3 sweepOk ev hev
    exact (absent_step_of_not_signals (e := Ev.tick now3 sweepOk)
      (fun ⟨b, t, h⟩ => by simp [Ev.signal] at h) habs).2 ev hev
  · exact emitted_of_absent later _ hlater habs

/-- Witness of C6, scenario B: bob starts at 0, stops at 500, the tick runs at 4000. -/
theorem stop_signal_removes_id_witness :
    JsVal.str "bob" ∉ keys (postTyping (some ⟨.str "bob", .bool false⟩) 500 500 true
      [(.str "bob", 0)]).typingUsers ∧
    stopEvent (.str "bob") ∉ (sweep 4000 (fun _ => true)
      (postTyping (some ⟨.str "bob", .bool false⟩) 500 500 true [(.str "bob", 0)]).typingUsers).published :=
  have h := stop_signal_removes_id [(.str "bob", 0)] (.str "bob") 500 500 true
    [Ev.tick 4000 (fun _ => true)] (by decide)
    (by
      intro e he
      simp only [List.mem_singleton] at he
      subst he
      exact fun ⟨b, t, h⟩ => by simp [Ev.signal] at h)
  ⟨h.1, fun hmem => h.2.2.2.2.1 4000 (fun _ => true) _ hmem rfl⟩

/-! ## Claims on what the registry reports -/

theorem lastTrueAt_nil (k : JsVal) (t : Int) (later : List Ev) : ¬ LastTrueAt k t [] later := by
  rintro ⟨earlier, e, h, _⟩
  simp at h

theorem lastTrueAt_snoc (k : JsVal) (t : Int) (tr : List Ev) (e : Ev) (later : List Ev) :
    LastTrueAt k t (tr ++ [e]) later ↔
      (later = [] ∧ e.signal = some (k, true, t)) ∨
      (∃ l2, later = l2 ++ [e] ∧ LastTrueAt k t tr l2 ∧ ¬ e.signals k) := by
  constructor
  · rintro ⟨earlier, e2, heq, hsig, hno⟩
    rcases List.eq_nil_or_concat later with rfl | ⟨l2, e3, rfl⟩
    · have h := List.append_inj' heq rfl
      simp only [List.cons.injEq, and_true] at h
      left
      exact ⟨rfl, h.2 ▸ hsig⟩
    · rw [List.concat_eq_append] at heq hno ⊢
      have heq2 : tr ++ [e] = (earlier ++ e2 :: l2) ++ [e3] := by simpa using heq
      have h := List.append_inj' heq2 rfl
      simp only [List.cons.injEq, and_true] at h
      right
      obtain ⟨h1, rfl⟩ := h
      exact ⟨l2, rfl, ⟨earlier, e2, h1, hsig, fun x hx => hno x (List.mem_append_left _ hx)⟩,
        hno e (List.mem_append_right _ (List.mem_singleton_self e))⟩
  · rintro (⟨rfl, hsig⟩ | ⟨l2, rfl, ⟨earlier, e2, rfl, hsig, hno⟩, hne⟩)
    · exact ⟨tr, e, rfl, hsig, by simp⟩
    · refine ⟨earlier, e2, by simp, hsig, ?_⟩
      intro x hx
      rcases List.mem_append.1 hx with hx | hx
      · exact hno x hx
      · rw [List.mem_singleton.1 hx]
        exact hne

/-- The registry holds `k` with timestamp `t` exactly when the most recent signal of
`k` was isTyping=true at `t` and no tick since found it older than the timeout. -/
theorem mapGet_run_iff (tr : List Ev) (k : JsVal) (t : Int) :
    mapGet k (run tr []) = some t ↔ UnsweptAt k t tr := by
  induction tr using List.reverseRecOn generalizing t with
  | nil =>
    constructor
    · intro h
      simp [run, mapGet] at h
    · rintro ⟨later, h, _⟩
      exact absurd h (lastTrueAt_nil k t later)
  | append_singleton tr e ih =>
    rw [run_snoc]
    have hwf : WF (run tr []) := WF_run tr WF_nil
    by_cases hs : e.signals k
    · obtain ⟨b, t1, hsig⟩ := hs
      rw [mapGet_step_of_signal _ hsig]
      constructor
      · intro h
        cases b
        · simp at h
        · simp only [if_true, Option.some.injEq] at h
          subst h
          exact ⟨[], (lastTrueAt_snoc k t1 tr e []).2 (Or.inl ⟨rfl, hsig⟩), by simp⟩
      · rintro ⟨later, h, _⟩
        rcases (lastTrueAt_snoc k t tr e later).1 h with ⟨_, hsig2⟩ | ⟨l2, _, _, hne⟩
        · rw [hsig] at hsig2
          simp only [Option.some.injEq, Prod.mk.injEq, true_and] at hsig2
          obtain ⟨rfl, rfl⟩ := hsig2
          rfl
        · exact absurd ⟨b, t1, hsig⟩ hne
    · cases e with
      | tick now ok =>
        simp only [step]
        rw [mapGet_sweep hwf]
        constructor
        · intro h
          cases hg : mapGet k (run tr []) with
          | none => simp [hg, Option.filter] at h
          | some t2 =>
            rw [hg] at h
            by_cases hexp : now - t2 > TYPING_TIMEOUT
            · simp [Option.filter, hexp] at h
            · simp only [Option.filter, hexp, not_false_eq_true, decide_True, if_true,
                Option.some.injEq] at h
              subst h
              obtain ⟨l2, hl2, hsw⟩ := (ih t2).1 hg
              refine ⟨l2 ++ [Ev.tick now ok],
                (lastTrueAt_snoc k t2 tr _ _).2 (Or.inr ⟨l2, rfl, hl2, hs⟩), ?_⟩
              intro now2 ok2 hmem
              rcases List.mem_append.1 hmem with hmem | hmem
              · exact hsw now2 ok2 hmem
              · have := List.mem_singleton.1 hmem
                cases this
                exact hexp
        · rintro ⟨later, h, hsw⟩
          rcases (lastTrueAt_snoc k t tr _ later).1 h with ⟨_, hsig2⟩ | ⟨l2, rfl, hl2, _⟩
          · simp [Ev.signal] at hsig2
          · have hg : mapGet k (run tr []) = some t :=
              (ih t).2 ⟨l2, hl2, fun n o hm => hsw n o (List.mem_append_left _ hm)⟩
            have hexp : ¬ (now - t > TYPING_TIMEOUT) :=
              hsw now ok (List.mem_append_right _ (List.mem_singleton_self _))
            simp [hg, Option.filter, hexp]
      | get =>
        simp only [step]
        rw [ih t]
        constructor
        · rintro ⟨l2, hl2, hsw⟩
          refine ⟨l2 ++ [Ev.get], (lastTrueAt_snoc k t tr _ _).2 (Or.inr ⟨l2, rfl, hl2, hs⟩), ?_⟩
          intro now2 ok2 hmem
          rcases List.mem_append.1 hmem with hmem | hmem
          · exact hsw now2 ok2 hmem
          · simp at hmem
        · rintro ⟨later, h, hsw⟩
          rcases (lastTrueAt_snoc k t tr _ later).1 h with ⟨_, hsig2⟩ | ⟨l2, rfl, hl2, _⟩
          · simp [Ev.signal] at hsig2
          · exact ⟨l2, hl2, fun n o hm => hsw n o (List.mem_append_left _ hm)⟩
      | post req now nowPub ok =>
        rw [mapGet_step_of_not_signals _ hs rfl, ih t]
        constructor
        · rintro ⟨l2, hl2, hsw⟩
          refine ⟨l2 ++ [Ev.post req now nowPub ok],
            (lastTrueAt_snoc k t tr _ _).2 (Or.inr ⟨l2, rfl, hl2, hs⟩), ?_⟩
          intro now2 ok2 hmem
          rcases List.mem_append.1 hmem with hmem | hmem
          · exact hsw now2 ok2 hmem
          · simp at hmem
        · rintro ⟨later, h, hsw⟩
          rcases (lastTrueAt_snoc k t tr _ later).1 h with ⟨_, hsig2⟩ | ⟨l2, rfl, hl2, _⟩
          · exact absurd ⟨true, t, hsig2⟩ hs
          · exact ⟨l2, hl2, fun n o hm => hsw n o (List.mem_append_left _ hm)⟩

theorem mem_keys_run_iff (tr : List Ev) (k : JsVal) :
    k ∈ keys (run tr []) ↔ ∃ t, UnsweptAt k t tr := by
  constructor
  · intro h
    cases hg : mapGet k (run tr []) with
    | none => exact absurd h ((mapGet_eq_none_iff _ _).1 hg)
    | some t => exact ⟨t, (mapGet_run_iff tr k t).1 hg⟩
  · rintro ⟨t, h⟩
    have hg := (mapGet_run_iff tr k t).2 h
    by_contra hk
    rw [(mapGet_eq_none_iff _ _).2 hk] at hg
    cases hg

/-- C7, as stated, fails: alice signals isTyping=true at 0 and no tick runs before a
query at 3500. The registry reports one id, while no id has a most recent signal
that is true and younger than 3000. -/
theorem registry_count_lags_behind_ttl :
    getTyping (run [Ev.post (some ⟨.str "alice", .bool true⟩) 0 0 true] []) =
      ⟨200, .typingUsers [.str "alice"]⟩ ∧
    Set.ncard {k | FreshAt k 3500 [Ev.post (some ⟨.str "alice", .bool true⟩) 0 0 true]} = 0 ∧
    (keys (run [Ev.post (some ⟨.str "alice", .bool true⟩) 0 0 true] [])).length ≠
      Set.ncard {k | FreshAt k 3500 [Ev.post (some ⟨.str "alice", .bool true⟩) 0 0 true]} := by
  have hempty : {k | FreshAt k 3500 [Ev.post (some ⟨.str "alice", .bool true⟩) 0 0 true]} = ∅ := by
    ext k
    simp only [Set.mem_setOf_eq, Set.mem_empty_iff_false, iff_false]
    rintro ⟨t, later, h, hage⟩
    rcases (lastTrueAt_snoc k t [] _ later).1 h with ⟨_, hsig⟩ | ⟨l2, _, h2, _⟩
    · simp only [Ev.signal, JsVal.truthy] at hsig
      have ht : (0 : Int) = t := by
        simp at hsig
        exact hsig.2
      subst ht
      simp [TYPING_TIMEOUT] at hage
    · exact lastTrueAt_nil k t l2 h2
  refine ⟨by decide, by rw [hempty]; exact Set.ncard_empty _, ?_⟩
  rw [hempty, Set.ncard_empty]
  decide

/-- C7, amended: after any sequence of typing requests and ticks from the empty
registry, the ids a query reports are pairwise distinct and are exactly the ids whose
most recent signal was isTyping=true and that no tick since that signal found older
than 3000 ms; so their number is the number of those ids. -/
theorem registry_reports_unswept (tr : List Ev) :
    getTyping (run tr []) = ⟨200, .typingUsers (keys (run tr []))⟩ ∧
    (keys (run tr [])).Nodup ∧
    (∀ k, k ∈ keys (run tr []) ↔ ∃ t, UnsweptAt k t tr) ∧
    (keys (run tr [])).length = Set.ncard {k | ∃ t, UnsweptAt k t tr} := by
  have hnd : (keys (run tr [])).Nodup := WF_run tr WF_nil
  refine ⟨rfl, hnd, mem_keys_run_iff tr, ?_⟩
  have hset : {k | ∃ t, UnsweptAt k t tr} = ((keys (run tr [])).toFinset : Set JsVal) := by
    ext k
    simp [mem_keys_run_iff]
  rw [hset, Set.ncard_coe_Finset, List.toFinset_card_of_nodup hnd]

/-! ## Claims on the sweep interval -/

theorem runTicks_nextSweep (sweepOk : TypingEvent → Bool) (n : Nat) (s : Server) :
    (runTicks sweepOk n s).nextSweep = s.nextSweep + 5000 * n := by
  induction n generalizing s with
  | zero => simp [runTicks]
  | succ n ih =>
    simp only [runTicks, ih, SWEEP_INTERVAL]
    push_cast
    ring

theorem runTicks_inv (sweepOk : TypingEvent → Bool) (n : Nat) (s : Server)
    (hwf : WF s.typingUsers) (hb : ∀ e ∈ s.typingUsers, s.nextSweep - e.2 ≤ 8000) :
    WF (runTicks sweepOk n s).typingUsers ∧
    ∀ e ∈ (runTicks sweepOk n s).typingUsers, (runTicks sweepOk n s).nextSweep - e.2 ≤ 8000 := by
  induction n generalizing s with
  | zero => exact ⟨hwf, hb⟩
  | succ n ih =>
    simp only [runTicks]
    apply ih
    · exact WF_sweep hwf _ _
    · intro e he
      simp only [sweep_typingUsers hwf, List.mem_filter, decide_eq_true_eq, TYPING_TIMEOUT] at he
      simp only [SWEEP_INTERVAL]
      omega

theorem advance_inv (sweepOk : TypingEvent → Bool) {T0 T : Int} {s : Server}
    (h : ServerInv T0 s) (hT : T0 ≤ T) : ServerInv T (advance sweepOk T s) := by
  obtain ⟨hwf, h1, h2, hb⟩ := h
  have hinv := runTicks_inv sweepOk (ticksDue s.nextSweep T) s hwf hb
  have hn := runTicks_nextSweep sweepOk (ticksDue s.nextSweep T) s
  have hd : (T < s.nextSweep ∧ (ticksDue s.nextSweep T : Int) = 0) ∨
      (s.nextSweep ≤ T ∧ (ticksDue s.nextSweep T : Int) = (T - s.nextSweep) / 5000 + 1) := by
    by_cases hlt : T < s.nextSweep
    · left
      simp [ticksDue, hlt]
    · right
      refine ⟨by omega, ?_⟩
      simp only [ticksDue, hlt, if_false, SWEEP_INTERVAL]
      push_cast
      omega
  have hadv : (advance sweepOk T s).nextSweep =
      s.nextSweep + 5000 * (ticksDue s.nextSweep T : Int) := hn
  refine ⟨hinv.1, ?_, ?_, hinv.2⟩
  · rw [hadv]
    omega
  · rw [hadv]
    omega

theorem mem_mapSet {k : JsVal} {v : Int} {m : Registry} {e : JsVal × Int}
    (h : e ∈ mapSet k v m) : e = (k, v) ∨ e ∈ m := by
  induction m with
  | nil => simpa [mapSet] using h
  | cons x rest ih =>
    obtain ⟨k1, v1⟩ := x
    by_cases hk : k1 = k
    · simp only [mapSet, hk, if_true, List.mem_cons] at h
      rcases h with h | h
      · exact Or.inl h
      · exact Or.inr (List.mem_cons_of_mem _ h)
    · simp only [mapSet, hk, if_false, List.mem_cons] at h
      rcases h with h | h
      · exact Or.inr (h ▸ List.mem_cons_self _ _)
      · rcases ih h with h | h
        · exact Or.inl h
        · exact Or.inr (List.mem_cons_of_mem _ h)

theorem mem_postTyping {body : Option TypingRequest} {now nowPub : Int} {ok : Bool}
    {reg : Registry} {e : JsVal × Int}
    (h : e ∈ (postTyping body now nowPub ok reg).typingUsers) : e ∈ reg ∨ e.2 = now := by
  rcases postTyping_cases body now nowPub ok reg with ⟨_, h1, _⟩ | ⟨u, b, _, _, _, h1, _⟩
  · rw [h1] at h
    exact Or.inl h
  · rw [h1] at h
    cases b
    · exact Or.inl ((mem_mapDelete u e reg).1 (by simpa using h)).1
    · rcases mem_mapSet (by simpa using h) with h | h
      · exact Or.inr (by rw [h])
      · exact Or.inl h

theorem postAt_inv (sweepOk : TypingEvent → Bool) {T0 : Int} {s : Server} (p : TimedPost)
    (h : ServerInv T0 s) (hT : T0 ≤ p.time) : ServerInv p.time (postAt sweepOk s p) := by
  obtain ⟨hwf, h1, h2, hb⟩ := advance_inv sweepOk h hT
  refine ⟨WF_postTyping _ _ _ _ hwf, h1, h2, ?_⟩
  intro e he
  rcases mem_postTyping he with he | he
  · exact hb e he
  · simp only [postAt]
    omega

theorem boot_inv (start : Int) : ServerInv start (boot start) := by
  refine ⟨WF_nil, ?_, ?_, ?_⟩ <;> simp [boot, SWEEP_INTERVAL]

theorem foldl_postAt_inv (sweepOk : TypingEvent → Bool) (reqs : List TimedPost) (T0 T : Int)
    (s : Server) (h : ServerInv T0 s)
    (hchain : List.Chain (fun a b : Int => a ≤ b) T0 (reqs.map TimedPost.time ++ [T])) :
    ServerInv T (advance sweepOk T (reqs.foldl (postAt sweepOk) s)) := by
  induction reqs generalizing T0 s with
  | nil =>
    simp only [List.map_nil, List.nil_append, List.chain_cons, List.Chain.nil, and_true] at hchain
    exact advance_inv sweepOk h hchain
  | cons p ps ih =>
    simp only [List.map_cons, List.cons_append, List.chain_cons] at hchain
    exact ih p.time _ (postAt_inv sweepOk p h hchain.1) hchain.2

/-- C10, as stated, fails: the server starts at 0 and ticks at 5000 and 10000. An
entry written at 2000 has age 3000 at the first tick, which keeps it, so a query at
9999 still reads it at age 7999, more than 5000. -/
theorem entry_outlives_interval :
    (JsVal.str "alice", (2000 : Int)) ∈ entriesAt (fun _ => true) 9999
      (serve (fun _ => true) 0 [⟨2000, some ⟨.str "alice", .bool true⟩, true⟩]) ∧
    (9999 : Int) - 2000 > 5000 := by
  constructor <;> decide

/-- C10, amended: with a tick every 5000 ms and the 3000 ms timeout, for every
time-ordered schedule of requests since the start of the server, every entry a query
at time `T` reads has age below 8000 ms, so an entry stays less than one interval
(5000 ms) past its timeout. -/
theorem entry_age_below_timeout_plus_interval (sweepOk : TypingEvent → Bool) (start : Int)
    (reqs : List TimedPost) (T : Int)
    (hchain : List.Chain (fun a b : Int => a ≤ b) start (reqs.map TimedPost.time ++ [T])) :
    ∀ e ∈ entriesAt sweepOk T (serve sweepOk start reqs), T - e.2 < 8000 := by
  intro e he
  obtain ⟨_, h1, _, hb⟩ := foldl_postAt_inv sweepOk reqs start T (boot start) (boot_inv start) hchain
  have := hb e he
  omega

/-- Witness of C10 amended: the schedule of the counterexample; the entry read at
9999 has age 7999. -/
theorem entry_age_below_timeout_plus_interval_witness :
    List.Chain (fun a b : Int => a ≤ b) 0
      (([⟨2000, some ⟨.str "alice", .bool true⟩, true⟩] : List TimedPost).map TimedPost.time ++
        [9999]) ∧
    (JsVal.str "alice", (2000 : Int)) ∈ entriesAt (fun _ => true) 9999
      (serve (fun _ => true) 0 [⟨2000, some ⟨.str "alice", .bool true⟩, true⟩]) ∧
    (9999 : Int) - 2000 < 8000 :=
  ⟨by simp, by decide,
    entry_age_below_timeout_plus_interval (fun _ => true) 0
      [⟨2000, some ⟨.str "alice", .bool true⟩, true⟩] 9999 (by simp)
      (JsVal.str "alice", 2000) (by decide)⟩

/-! ## Claims on the client reconciler -/

theorem mem_setDelete (u x : JsVal) (s : List JsVal) : x ∈ setDelete u s ↔ x ∈ s ∧ x ≠ u := by
  simp [setDelete]

theorem mem_setAdd (u x : JsVal) (s : List JsVal) : x ∈ setAdd u s ↔ x ∈ s ∨ x = u := by
  unfold setAdd
  split
  · constructor
    · exact Or.inl
    · rintro (h | rfl)
      · exact h
      · assumption
  · simp

theorem mem_foldl_timeoutCallback (x : JsVal) (l : List (Int × JsVal)) (s : List JsVal) :
    x ∈ l.foldl (fun acc p => timeoutCallback p.2 acc) s ↔ x ∈ s ∧ ∀ p ∈ l, p.2 ≠ x := by
  induction l generalizing s with
  | nil => simp
  | cons p ps ih =>
    rw [List.foldl_cons, ih]
    simp only [timeoutCallback, mem_setDelete, List.mem_cons, forall_eq_or_imp]
    constructor
    · rintro ⟨⟨h1, h2⟩, h3⟩
      exact ⟨h1, fun h => h2 h.symm, h3⟩
    · rintro ⟨h1, h2, h3⟩
      exact ⟨⟨h1, fun h => h2 h.symm⟩, h3⟩

theorem mem_displayed (x : JsVal) (T : Int) (c : Client) :
    x ∈ displayed T c ↔ x ∈ c.typingUsers ∧ ∀ p ∈ c.timers, p.2 = x → ¬ p.1 ≤ T := by
  simp only [displayed, fireDue, mem_foldl_timeoutCallback, List.mem_filter, decide_eq_true_eq]
  constructor
  · rintro ⟨h1, h2⟩
    exact ⟨h1, fun p hp hx hle => h2 p ⟨hp, hle⟩ hx⟩
  · rintro ⟨h1, h2⟩
    exact ⟨h1, fun p hp hx => h2 p hp.1 hx hp.2⟩

theorem runClient_snoc (username : String) (msgs : List (Int × Message)) (p : Int × Message) :
    runClient username (msgs ++ [p]) =
      typingHandler username p.2 p.1 (fireDue p.1 (runClient username msgs)) := by
  simp [runClient, receive, List.foldl_append]

/-- Every displayed peer has a pending callback armed by a received isTyping=true
event of that peer. -/
theorem runClient_pending (username : String) (msgs : List (Int × Message)) :
    ∀ u ∈ (runClient username msgs).typingUsers, ∃ p ∈ msgs,
      p.2.name = "typing" ∧ p.2.username = u ∧ p.2.isTyping = true ∧
      (p.1 + CLIENT_TIMEOUT, u) ∈ (runClient username msgs).timers := by
  induction msgs using List.reverseRecOn with
  | nil => simp [runClient]
  | append_singleton msgs q ih =>
    intro u hu
    rw [runClient_snoc] at hu ⊢
    have hold : ∀ v ∈ (fireDue q.1 (runClient username msgs)).typingUsers, ∃ p ∈ msgs,
        p.2.name = "typing" ∧ p.2.username = v ∧ p.2.isTyping = true ∧
        (p.1 + CLIENT_TIMEOUT, v) ∈ (fireDue q.1 (runClient username msgs)).timers := by
      intro v hv
      have hv2 := (mem_displayed v q.1 _).1 hv
      obtain ⟨p, hp, h1, h2, h3, h4⟩ := ih v hv2.1
      refine ⟨p, hp, h1, h2, h3, ?_⟩
      simp only [fireDue, List.mem_filter, decide_eq_true_eq]
      exact ⟨h4, hv2.2 _ h4 rfl⟩
    generalize fireDue q.1 (runClient username msgs) = c at hu hold ⊢
    by_cases hg : q.2.name = "typing" ∧ q.2.username ≠ .str username
    · by_cases hty : q.2.isTyping = true
      · simp only [typingHandler, hg, hty, if_true, and_self, ne_eq, not_false_eq_true] at hu ⊢
        rcases (mem_setAdd _ _ _).1 hu with hu | hu
        · obtain ⟨p, hp, h1, h2, h3, h4⟩ := hold u hu
          exact ⟨p, List.mem_append_left _ hp, h1, h2, h3, List.mem_append_left _ h4⟩
        · refine ⟨q, by simp, hg.1, hu.symm, hty, ?_⟩
          rw [hu]
          simp
      · simp only [typingHandler, hg, hty, if_true, and_self, ne_eq, not_false_eq_true] at hu ⊢
        simp only [Bool.false_eq_true, if_false] at hu ⊢
        obtain ⟨p, hp, h1, h2, h3, h4⟩ := hold u ((mem_setDelete _ _ _).1 hu).1
        exact ⟨p, List.mem_append_left _ hp, h1, h2, h3, h4⟩
    · simp only [typingHandler, hg, if_false] at hu ⊢
      obtain ⟨p, hp, h1, h2, h3, h4⟩ := hold u hu
      exact ⟨p, List.mem_append_left _ hp, h1, h2, h3, h4⟩

/-- A displayed peer sent an isTyping=true event less than the timeout ago. -/
theorem displayed_recent (username : String) (msgs : List (Int × Message)) (T : Int) (u : JsVal)
    (hu : u ∈ displayed T (runClient username msgs)) :
    ∃ p ∈ msgs, p.2.name = "typing" ∧ p.2.username = u ∧ p.2.isTyping = true ∧
      T < p.1 + CLIENT_TIMEOUT := by
  have h := (mem_displayed u T _).1 hu
  obtain ⟨p, hp, h1, h2, h3, h4⟩ := runClient_pending username msgs u h.1
  exact ⟨p, hp, h1, h2, h3, not_le.1 (h.2 _ h4 rfl)⟩

/-- The callback armed by an accepted isTyping=true event stays pending as long as
every message arrives before it is due. -/
theorem runClient_timer_pending (username : String) (msgs : List (Int × Message))
    (p : Int × Message) (hp : p ∈ msgs) (hname : p.2.name = "typing")
    (hpeer : p.2.username ≠ .str username) (hty : p.2.isTyping = true)
    (hbefore : ∀ q ∈ msgs, q.1 < p.1 + CLIENT_TIMEOUT) :
    (p.1 + CLIENT_TIMEOUT, p.2.username) ∈ (runClient username msgs).timers := by
  induction msgs using List.reverseRecOn with
  | nil => simp at hp
  | append_singleton msgs q ih =>
    rw [runClient_snoc]
    have hq : q.1 < p.1 + CLIENT_TIMEOUT := hbefore q (by simp)
    have hkeep : ∀ x, x ∈ (fireDue q.1 (runClient username msgs)).timers →
        x ∈ (typingHandler username q.2 q.1 (fireDue q.1 (runClient username msgs))).timers := by
      intro x hx
      unfold typingHandler
      split
      · split
        · exact List.mem_append_left _ hx
        · exact hx
      · exact hx
    rcases List.mem_append.1 hp with hp | hp
    · apply hkeep
      have h := ih hp (fun x hx => hbefore x (List.mem_append_left _ hx))
      simp only [fireDue, List.mem_filter, decide_eq_true_eq]
      exact ⟨h, not_le.2 hq⟩
    · have hpq : p = q := List.mem_singleton.1 hp
      subst hpq
      simp [typingHandler, hname, hpeer, hty]

/-- C8: in the client reconciler, for every sequence of inbound events received up
to time `T`, a peer displayed at `T` sent an isTyping=true event at most 3000 ms
earlier; an isTyping=true event of a peer shows the peer and, with no further
message, the peer is no longer displayed from 3000 ms after it on; an event whose
username is the local user changes nothing. -/
theorem client_never_shows_stale_peer (username : String) (msgs : List (Int × Message))
    (T : Int) (hT : ∀ p ∈ msgs, p.1 ≤ T) :
    (∀ u ∈ displayed T (runClient username msgs), ∃ p ∈ msgs,
      p.2.name = "typing" ∧ p.2.username = u ∧ p.2.isTyping = true ∧
      p.1 ≤ T ∧ T - p.1 ≤ 3000) ∧
    (∀ (t : Int) (m : Message), m.name = "typing" → m.username ≠ .str username →
      m.isTyping = true → (∀ p ∈ msgs, p.1 ≤ t) →
      m.username ∈ (runClient username (msgs ++ [(t, m)])).typingUsers ∧
      ∀ T2, t + 3000 ≤ T2 → m.username ∉ displayed T2 (runClient username (msgs ++ [(t, m)]))) ∧
    (∀ (t : Int) (m : Message) (c : Client), m.username = .str username →
      typingHandler username m t c = c) := by
  refine ⟨?_, ?_, ?_⟩
  · intro u hu
    obtain ⟨p, hp, h1, h2, h3, h4⟩ := displayed_recent username msgs T u hu
    have := hT p hp
    simp only [CLIENT_TIMEOUT] at h4
    exact ⟨p, hp, h1, h2, h3, this, by omega⟩
  · intro t m hname hpeer hty hbefore
    constructor
    · rw [runClient_snoc]
      simp [typingHandler, hname, hpeer, hty, mem_setAdd]
    · intro T2 hT2 hmem
      obtain ⟨p, hp, _, _, _, h4⟩ := displayed_recent username _ T2 _ hmem
      simp only [CLIENT_TIMEOUT] at h4
      rcases List.mem_append.1 hp with hp | hp
      · have := hbefore p hp
        omega
      · have hpt : p = (t, m) := List.mem_singleton.1 hp
        rw [hpt] at h4
        simp only at h4
        omega
  · intro t m c hself
    simp [typingHandler, hself]

/-- Witness of C8: carol starts typing at 0 and nothing else arrives; she is
displayed at 2999. -/
theorem client_never_shows_stale_peer_witness :
    JsVal.str "carol" ∈ displayed 2999 (runClient "me" [(0, ⟨"typing", .str "carol", true⟩)]) ∧
    ∃ p ∈ [((0 : Int), (⟨"typing", .str "carol", true⟩ : Message))],
      p.2.name = "typing" ∧ p.2.username = JsVal.str "carol" ∧ p.2.isTyping = true ∧
      p.1 ≤ 2999 ∧ 2999 - p.1 ≤ 3000 :=
  ⟨by decide,
    (client_never_shows_stale_peer "me" [(0, ⟨"typing", .str "carol", true⟩)] 2999
      (by decide)).1 (JsVal.str "carol") (by decide)⟩

/-- C9, as stated, fails: carol sends isTyping=true at 0 and again at 2000. When the
callback of the first event fires at 3000 she is removed although the fresher event
was received, and she stays removed at 4000 while the callback of the fresher event,
due at 5000, is still pending. -/
theorem old_timer_removes_despite_fresher_event :
    displayed 2999 (runClient "me"
      [(0, ⟨"typing", .str "carol", true⟩), (2000, ⟨"typing", .str "carol", true⟩)]) =
      [.str "carol"] ∧
    JsVal.str "carol" ∉ displayed 3000 (runClient "me"
      [(0, ⟨"typing", .str "carol", true⟩), (2000, ⟨"typing", .str "carol", true⟩)]) ∧
    JsVal.str "carol" ∉ displayed 4000 (runClient "me"
      [(0, ⟨"typing", .str "carol", true⟩), (2000, ⟨"typing", .str "carol", true⟩)]) ∧
    ((5000 : Int), JsVal.str "carol") ∈ (fireDue 4000 (runClient "me"
      [(0, ⟨"typing", .str "carol", true⟩), (2000, ⟨"typing", .str "carol", true⟩)])).timers := by
  refine ⟨?_, ?_, ?_, ?_⟩ <;> decide

/-- C9, amended: the callback removes the peer it captured whatever happened since;
so when the 3000 ms timer armed by an isTyping=true event of a peer fires, the peer is
not displayed, also when fresher isTyping=true events of that peer arrived before the
timer was due. -/
theorem timer_removes_peer_unconditionally (username : String) (msgs : List (Int × Message))
    (t : Int) (m : Message) (hm : (t, m) ∈ msgs) (hname : m.name = "typing")
    (hpeer : m.username ≠ .str username) (hty : m.isTyping = true)
    (hbefore : ∀ q ∈ msgs, q.1 < t + 3000) :
    (∀ s : List JsVal, m.username ∉ timeoutCallback m.username s) ∧
    m.username ∉ displayed (t + 3000) (runClient username msgs) := by
  constructor
  · intro s hmem
    exact ((mem_setDelete _ _ _).1 hmem).2 rfl
  · intro hmem
    have h := (mem_displayed _ _ _).1 hmem
    have hpend := runClient_timer_pending username msgs (t, m) hm hname hpeer hty hbefore
    exact h.2 _ hpend rfl (le_refl _)

/-- Witness of C9 amended: the two events of carol of the counterexample. -/
theorem timer_removes_peer_unconditionally_witness :
    JsVal.str "carol" ∉ displayed (0 + 3000) (runClient "me"
      [(0, ⟨"typing", .str "carol", true⟩), (2000, ⟨"typing", .str "carol", true⟩)]) :=
  (timer_removes_peer_unconditionally "me"
    [(0, ⟨"typing", .str "carol", true⟩), (2000, ⟨"typing", .str "carol", true⟩)]
    0 ⟨"typing", .str "carol", true⟩ (by decide) (by decide) (by decide) (by decide)
    (by decide)).2

end AblyChat
